import Mathlib

/-!
Shallow embedding of `src/bin/download.rs` from solana-accounts-filter-bench:
the slot cursor (`Slots` with `SlotsInner`), its retrying window refill, the
truncation entry point `remove_by_block_time`, the bounded retry wrapper used
by both remote calls, the lock/suspension event structure of `Slots::next`,
and the worker processing step for a fetched block.

Slots are u64 in the source; they are embedded as `Nat` with explicit
wrapping modulo `2 ^ 64` where the source performs u64 subtraction
(release-build semantics).  Block times (`UnixTimestamp`, an i64) are
embedded as `Int`.  The Remote Ledger Service is abstracted by the ascending
list `u` of all slots it knows: `get_blocks u a b` answers the range query
the way the RPC interface specifies (ascending list of existing slots in
`[a, b]`).
-/

/-- Size of the u64 value space; u64 arithmetic wraps modulo this. -/
def u64Size : ℕ := 2 ^ 64

/-- Wrapping u64 subtraction (release-build semantics of `a - b` on u64),
meaningful for `a < u64Size` and `b ≤ u64Size`. -/
def wsub (a b : ℕ) : ℕ := (a + (u64Size - b)) % u64Size

/-- The fixed backoff `sleep(Duration::from_secs(10))`, in seconds. -/
def backoffSecs : ℕ := 10

/-- Outcome of one bounded-retry remote call: the final result, how many
calls were issued in total, and the list of backoff sleeps (durations in
seconds) performed between calls. -/
structure RetryResult (E A : Type) where
  result : Except E A
  calls : ℕ
  sleeps : List ℕ

/-- The retry loop shared by `Slots::next` (around `get_blocks`) and the
worker loop (around `get_block_with_encoding`): `attempts` starts at 5; a
failed call with `attempts == 0` returns that error; any other failed call
decrements `attempts`, sleeps 10 seconds and retries.  `call k` is the
outcome of the k-th issued call (0-based). -/
def retryAux {E A : Type} (call : ℕ → Except E A) : ℕ → ℕ → List ℕ → RetryResult E A
  | 0, k, sl =>
    match call k with
    | Except.ok a => ⟨Except.ok a, k + 1, sl⟩
    | Except.error e => ⟨Except.error e, k + 1, sl⟩
  | n + 1, k, sl =>
    match call k with
    | Except.ok a => ⟨Except.ok a, k + 1, sl⟩
    | Except.error _ => retryAux call n (k + 1) (sl ++ [backoffSecs])

/-- `let mut attempts = 5; loop { match call().await { ... } }`. -/
def retryCall {E A : Type} (call : ℕ → Except E A) : RetryResult E A :=
  retryAux call 5 0 []

/-- `SlotsInner`: the pending slot list (a `Vec<Slot>` popped from the back)
and the optional window boundary `end_slot`. -/
structure SlotsInner where
  slots : List ℕ
  end_slot : Option ℕ
deriving Repr, DecidableEq

/-- Modelled from the spec: the external Remote Ledger Service call
`RpcClient::get_blocks(start_slot, Some(end_slot))` (the `list_slots`
interface of section 6), answering the ascending list of existing slots in
`[start_slot, end_slot]`; `u` is the ascending list of all slots the ledger
holds. -/
def get_blocks (u : List ℕ) (start_slot end_slot : ℕ) : List ℕ :=
  u.filter fun s => start_slot ≤ s ∧ s ≤ end_slot

/-- The window start computed in `Slots::next`: `end_slot - 1_000` on u64. -/
def windowStart (end_slot : ℕ) : ℕ := wsub end_slot 1000

/-- `Slots::next`, with the remote call abstracted by the ledger list `u`
(the retry loop around the call is `retryCall`; here only its final
successful outcome matters).  Pops the last pending slot; on empty pending
with a set boundary it refills from `get_blocks`, sets `end_slot` to
`first - 1` (u64 subtraction on the smallest returned slot), and pops the
refilled list; on empty pending with no boundary it returns `None`. -/
def Slots.next (u : List ℕ) (st : SlotsInner) : Option ℕ × SlotsInner :=
  match st.slots.getLast? with
  | some slot => (some slot, ⟨st.slots.dropLast, st.end_slot⟩)
  | none =>
    match st.end_slot with
    | some end_slot =>
      let slots := get_blocks u (windowStart end_slot) end_slot
      (slots.getLast?, ⟨slots.dropLast, slots.head?.map fun slot => wsub slot 1⟩)
    | none => (none, st)

/-- `Slots::remove_by_block_time`: if the observed block time is below the
stop time, keep only pending slots `>= slot` and clear the boundary;
otherwise do nothing. -/
def Slots.remove_by_block_time (block_time_stop : ℤ) (st : SlotsInner)
    (slot : ℕ) (block_time : ℤ) : SlotsInner :=
  if block_time < block_time_stop then
    ⟨st.slots.filter fun islot => slot ≤ islot, none⟩
  else st

/-- One cursor operation: a worker asking for work (`Slots::next`) or a
truncation (`Slots::remove_by_block_time slot block_time`). -/
inductive Op where
  | take : Op
  | trunc (slot : ℕ) (block_time : ℤ) : Op
deriving Repr, DecidableEq

/-- One atomic cursor step (the tokio mutex serializes the operations of
concurrent workers into such a sequence). -/
def stepOp (u : List ℕ) (stop : ℤ) (op : Op) (st : SlotsInner) : Option ℕ × SlotsInner :=
  match op with
  | Op.take => Slots.next u st
  | Op.trunc slot t => (none, Slots.remove_by_block_time stop st slot t)

/-- Run a sequence of cursor operations, collecting the returned slots. -/
def runOps (u : List ℕ) (stop : ℤ) : List Op → SlotsInner → List ℕ × SlotsInner
  | [], st => ([], st)
  | op :: ops, st =>
    ((stepOp u stop op st).1.toList ++ (runOps u stop ops (stepOp u stop op st).2).1,
     (runOps u stop ops (stepOp u stop op st).2).2)

/-- Ghost observer: the boundary value used by the most recent window
request.  A window request happens exactly when a `take` finds the pending
list empty and the boundary set. -/
def lastReq (st : SlotsInner) (op : Op) (g : Option ℕ) : Option ℕ :=
  match op with
  | Op.take =>
    match st.slots, st.end_slot with
    | [], some b => some b
    | _, _ => g
  | Op.trunc _ _ => g

/-- Run a sequence of cursor operations together with the ghost observer. -/
def runG (u : List ℕ) (stop : ℤ) : List Op → SlotsInner × Option ℕ → SlotsInner × Option ℕ
  | [], p => p
  | op :: ops, p => runG u stop ops ((stepOp u stop op p.1).2, lastReq p.1 op p.2)

/-- Scheduler-visible events of the concurrency model: taking and dropping
a mutex, and the two kinds of suspension point (a remote call, a backoff
sleep). -/
inductive Ev where
  | acquire : Ev
  | release : Ev
  | rpc : Ev
  | backoff : Ev
deriving Repr, DecidableEq

/-- Suspension events of the retry loop, where `call k` is the outcome of
the k-th issued call: each failed call with attempts left is followed by a
backoff sleep; the loop ends on a success or on the failure at attempt 0. -/
def retryEvents {E A : Type} (call : ℕ → Except E A) : ℕ → ℕ → List Ev
  | 0, _ => [Ev.rpc]
  | n + 1, k =>
    match call k with
    | Except.ok _ => [Ev.rpc]
    | Except.error _ => Ev.rpc :: Ev.backoff :: retryEvents call n (k + 1)

/-- Event trace of one `Slots::next` call: the cursor lock is taken first
(`self.inner.lock().await`) and dropped when the call returns; on the
refill path the `get_blocks` retry loop runs in between, while the guard is
alive. -/
def nextEvents {E A : Type} (call : ℕ → Except E A) (st : SlotsInner) : List Ev :=
  Ev.acquire ::
    (match st.slots, st.end_slot with
     | [], some _ => retryEvents call 5 0
     | _, _ => []) ++ [Ev.release]

/-- Event trace of the rest of a worker iteration once `next` returned a
slot: the block fetch retry loop runs with no lock held; the Result
Aggregate lock is then taken only around the in-memory insert. -/
def workerTailEvents {E A : Type} (call : ℕ → Except E A) : List Ev :=
  retryEvents call 5 0 ++ [Ev.acquire, Ev.release]

/-- Scans an event list carrying the lock flag `held`; `true` iff some
suspension event occurs while the flag is set. -/
def suspendsFrom : List Ev → Bool → Bool
  | [], _ => false
  | Ev.acquire :: rest, _ => suspendsFrom rest true
  | Ev.release :: rest, _ => suspendsFrom rest false
  | Ev.rpc :: rest, held => held || suspendsFrom rest held
  | Ev.backoff :: rest, held => held || suspendsFrom rest held

/-- Does some suspension event of `evs` happen while the lock is held? -/
def suspendsWhileHeld (evs : List Ev) : Bool := suspendsFrom evs false

/-- A fetched block as the worker sees it: the optional block time and, for
each transaction, the decoded account keys — `decode()` yields `none` when
the transaction payload cannot be decoded. -/
structure RBlock where
  block_time : Option ℤ
  transactions : List (Option (List String))
deriving Repr, DecidableEq

/-- The pubkey collection of the worker loop:
`transactions.iter().flat_map(|t| t.decode().map(...account_keys).unwrap_or_default())`
gathered into a `HashSet<String>`. -/
def collectPubkeys (transactions : List (Option (List String))) : Finset String :=
  (transactions.flatMap fun transaction => transaction.getD []).toFinset

/-- What the worker does with a fetched block. -/
inductive WorkerAct where
  | skip : WorkerAct
  | truncate (slot : ℕ) (block_time : ℤ) : WorkerAct
  | record (slot : ℕ) (block_time : ℤ) (pubkeys : Finset String) : WorkerAct
deriving DecidableEq

/-- The worker loop body applied to a successfully fetched block: a missing
block time skips the slot (`continue`); a block time below the stop calls
`remove_by_block_time` and continues; otherwise the pubkeys are collected
and the block is recorded in the Result Aggregate under its slot. -/
def processBlock (block_time_stop : ℤ) (slot : ℕ) (block : RBlock) : WorkerAct :=
  match block.block_time with
  | none => WorkerAct.skip
  | some block_time =>
    if block_time < block_time_stop then WorkerAct.truncate slot block_time
    else WorkerAct.record slot block_time (collectPubkeys block.transactions)

/-- Order on boundary observations: `boundaryLE b2 b1` says the boundary
moved weakly downward from `b1` to `b2`, where `none` (exhausted) sits
below every set value and stays terminal. -/
def boundaryLE : Option ℕ → Option ℕ → Prop
  | none, _ => True
  | some _, none => False
  | some x, some y => x ≤ y

instance (b2 b1 : Option ℕ) : Decidable (boundaryLE b2 b1) :=
  match b2, b1 with
  | none, _ => isTrue trivial
  | some _, none => isFalse fun h => h
  | some x, some y => inferInstanceAs (Decidable (x ≤ y))

/-! ### Helper lemmas -/

lemma u64Size_eq : u64Size = 18446744073709551616 := by norm_num [u64Size]

lemma wsub_eq_sub {a b : ℕ} (hb : b ≤ a) (ha : a < u64Size) : wsub a b = a - b := by
  have hbs : b ≤ u64Size := le_trans hb (le_of_lt ha)
  have h1 : a + (u64Size - b) = (a - b) + u64Size := by omega
  rw [wsub, h1, Nat.add_mod_right, Nat.mod_eq_of_lt]
  omega

lemma wsub_one_lt {m : ℕ} (hm : 1 ≤ m) : wsub m 1 < m := by
  rcases lt_or_le m u64Size with h | h
  · rw [wsub_eq_sub hm h]; omega
  · have hpos : 0 < u64Size := by rw [u64Size_eq]; omega
    exact lt_of_lt_of_le (Nat.mod_lt _ hpos) h

lemma exists_error_of_isOk_false {E A : Type} (x : Except E A) (h : x.isOk = false) :
    ∃ e, x = Except.error e := by
  cases x with
  | error e => exact ⟨e, rfl⟩
  | ok a => simp [Except.isOk, Except.toBool] at h

lemma mem_get_blocks {u : List ℕ} {a b s : ℕ} :
    s ∈ get_blocks u a b ↔ s ∈ u ∧ a ≤ s ∧ s ≤ b := by
  simp [get_blocks, List.mem_filter]

lemma get_blocks_sorted {u : List ℕ} (hu : List.Sorted (· < ·) u) (a b : ℕ) :
    List.Sorted (· < ·) (get_blocks u a b) := hu.filter _

lemma one_le_of_mem_get_blocks {u : List ℕ} (h0 : 0 ∉ u) {a b s : ℕ}
    (hs : s ∈ get_blocks u a b) : 1 ≤ s := by
  rcases mem_get_blocks.mp hs with ⟨hsu, -, -⟩
  rcases Nat.eq_zero_or_pos s with rfl | h
  · exact absurd hsu h0
  · exact h

lemma sorted_concat_facts {l : List ℕ} {m : ℕ} (hs : List.Sorted (· < ·) l)
    (hm : l.getLast? = some m) :
    (∀ s ∈ l, s ≤ m) ∧ (∀ s ∈ l.dropLast, s < m) ∧ m ∈ l := by
  rcases l.eq_nil_or_concat with rfl | ⟨l', a, hl⟩
  · cases hm
  · rw [List.concat_eq_append] at hl
    subst hl
    rw [List.getLast?_concat] at hm
    injection hm with hm
    subst hm
    have hp := (List.pairwise_append.mp hs).2.2
    refine ⟨?_, ?_, List.mem_append_right _ (List.mem_singleton_self a)⟩
    · intro s hsmem
      rcases List.mem_append.mp hsmem with h | h
      · exact le_of_lt (hp s h a (List.mem_singleton_self a))
      · rw [List.mem_singleton.mp h]
    · intro s hsmem
      rw [List.dropLast_concat] at hsmem
      exact hp s hsmem a (List.mem_singleton_self a)

lemma sorted_head_facts {l : List ℕ} {h1 : ℕ} (hs : List.Sorted (· < ·) l)
    (hh : l.head? = some h1) : (∀ s ∈ l, h1 ≤ s) ∧ h1 ∈ l := by
  cases l with
  | nil => cases hh
  | cons x t =>
    injection hh with hx
    subst hx
    have hp := List.sorted_cons.mp hs
    refine ⟨?_, List.mem_cons_self _ _⟩
    intro s hsmem
    rcases List.mem_cons.mp hsmem with rfl | h
    · exact le_refl _
    · exact le_of_lt (hp.1 s h)

lemma next_pop (u : List ℕ) (st : SlotsInner) (a : ℕ) (h : st.slots.getLast? = some a) :
    Slots.next u st = (some a, ⟨st.slots.dropLast, st.end_slot⟩) := by
  unfold Slots.next
  rw [h]

lemma next_refill (u : List ℕ) (b : ℕ) :
    Slots.next u ⟨[], some b⟩ =
      ((get_blocks u (windowStart b) b).getLast?,
       ⟨(get_blocks u (windowStart b) b).dropLast,
        (get_blocks u (windowStart b) b).head?.map fun slot => wsub slot 1⟩) := rfl

lemma next_done (u : List ℕ) : Slots.next u ⟨[], none⟩ = (none, ⟨[], none⟩) := rfl

lemma next_pop_fst (u : List ℕ) (st : SlotsInner) (a : ℕ) (h : st.slots.getLast? = some a) :
    (Slots.next u st).1 = some a := by rw [next_pop u st a h]

lemma next_pop_snd (u : List ℕ) (st : SlotsInner) (a : ℕ) (h : st.slots.getLast? = some a) :
    (Slots.next u st).2 = ⟨st.slots.dropLast, st.end_slot⟩ := by rw [next_pop u st a h]

lemma next_refill_fst (u : List ℕ) (b : ℕ) :
    (Slots.next u ⟨[], some b⟩).1 = (get_blocks u (windowStart b) b).getLast? := rfl

lemma next_refill_snd (u : List ℕ) (b : ℕ) :
    (Slots.next u ⟨[], some b⟩).2 =
      ⟨(get_blocks u (windowStart b) b).dropLast,
       (get_blocks u (windowStart b) b).head?.map fun slot => wsub slot 1⟩ := rfl

/-- Trace invariant for the dispatch argument: the pending list is strictly
ascending, drawn from the ledger and strictly below `v` (the most recently
returned slot, or one past the seed boundary), and the boundary, when set,
sits strictly below `v` and below every pending slot. -/
def CursorInv (u : List ℕ) (v : ℕ) (st : SlotsInner) : Prop :=
  List.Sorted (· < ·) st.slots ∧
  (∀ s ∈ st.slots, s ∈ u ∧ s < v) ∧
  ∀ b, st.end_slot = some b → b < v ∧ ∀ s ∈ st.slots, b < s

lemma cursorInv_terminal (u : List ℕ) (v : ℕ) : CursorInv u v ⟨[], none⟩ := by
  refine ⟨List.sorted_nil, ?_, ?_⟩ <;> simp

lemma next_inv {u : List ℕ} (hu : List.Sorted (· < ·) u) (h0 : 0 ∉ u)
    {v : ℕ} {st : SlotsInner} (hI : CursorInv u v st) :
    ((Slots.next u st).1 = none → CursorInv u v (Slots.next u st).2) ∧
    ∀ x, (Slots.next u st).1 = some x →
      x ∈ u ∧ x < v ∧ CursorInv u x (Slots.next u st).2 := by
  obtain ⟨hsort, hmem, hend⟩ := hI
  obtain ⟨l, e⟩ := st
  rcases l.eq_nil_or_concat with rfl | ⟨l2, a, hl⟩
  · -- pending list empty
    rcases e with - | b
    · -- boundary exhausted: nothing happens
      rw [next_done]
      exact ⟨fun _ => cursorInv_terminal u v, fun x hx => by cases hx⟩
    · -- refill path
      have hbv : b < v := (hend b rfl).1
      have hWsort : List.Sorted (· < ·) (get_blocks u (windowStart b) b) :=
        get_blocks_sorted hu _ b
      rcases hW : (get_blocks u (windowStart b) b).getLast? with - | m
      · -- empty window: boundary cleared, nothing returned
        have hWnil := List.getLast?_eq_none_iff.mp hW
        constructor
        · intro _
          rw [next_refill_snd, hWnil]
          exact cursorInv_terminal u v
        · intro x hx
          rw [next_refill_fst, hW] at hx
          cases hx
      · -- nonempty window: pop its maximum
        obtain ⟨hle, hlt, hmW⟩ := sorted_concat_facts hWsort hW
        obtain ⟨hmu, -, hmb⟩ := mem_get_blocks.mp hmW
        have hWne : get_blocks u (windowStart b) b ≠ [] := List.ne_nil_of_mem hmW
        rcases hh : (get_blocks u (windowStart b) b).head? with - | h1
        · exact absurd (List.head?_eq_none_iff.mp hh) hWne
        obtain ⟨hh1le, hh1mem⟩ := sorted_head_facts hWsort hh
        have hh1pos : 1 ≤ h1 := one_le_of_mem_get_blocks h0 hh1mem
        have hwlt : wsub h1 1 < h1 := wsub_one_lt hh1pos
        constructor
        · intro hx
          rw [next_refill_fst, hW] at hx
          cases hx
        · intro x hx
          rw [next_refill_fst, hW] at hx
          injection hx with hx
          subst hx
          refine ⟨hmu, lt_of_le_of_lt hmb hbv, ?_⟩
          rw [next_refill_snd, hh]
          refine ⟨hWsort.sublist (List.dropLast_sublist _), ?_, ?_⟩
          · intro s hs
            have hsW := (List.dropLast_sublist _).subset hs
            obtain ⟨hsu, -, -⟩ := mem_get_blocks.mp hsW
            exact ⟨hsu, hlt s hs⟩
          · intro b2 hb2
            injection hb2 with hb2
            subst hb2
            refine ⟨lt_of_lt_of_le hwlt (hh1le _ hmW), ?_⟩
            intro s hs
            exact lt_of_lt_of_le hwlt (hh1le s ((List.dropLast_sublist _).subset hs))
  · -- pending list nonempty: pop its last element
    rw [List.concat_eq_append] at hl
    subst hl
    have hga : (l2 ++ [a]).getLast? = some a := List.getLast?_concat _
    have hamem : a ∈ l2 ++ [a] := List.mem_append_right _ (List.mem_singleton_self a)
    have hp := (List.pairwise_append.mp hsort).2.2
    constructor
    · intro hx
      rw [next_pop_fst u _ a hga] at hx
      cases hx
    · intro x hx
      rw [next_pop_fst u _ a hga] at hx
      injection hx with hx
      subst hx
      obtain ⟨hau, hav⟩ := hmem a hamem
      refine ⟨hau, hav, ?_⟩
      rw [next_pop_snd u _ a hga]
      simp only [List.dropLast_concat]
      refine ⟨hsort.sublist (List.sublist_append_left l2 [a]), ?_, ?_⟩
      · intro s hs
        exact ⟨(hmem s (List.mem_append_left _ hs)).1,
               hp s hs a (List.mem_singleton_self a)⟩
      · intro b hb
        obtain ⟨hbv, hbs⟩ := hend b hb
        exact ⟨hbs a hamem, fun s hs => hbs s (List.mem_append_left _ hs)⟩

lemma remove_inv {u : List ℕ} {v : ℕ} {st : SlotsInner} (hI : CursorInv u v st)
    (stop t : ℤ) (s0 : ℕ) :
    CursorInv u v (Slots.remove_by_block_time stop st s0 t) := by
  obtain ⟨hsort, hmem, hend⟩ := hI
  unfold Slots.remove_by_block_time
  split
  · refine ⟨hsort.filter _, ?_, ?_⟩
    · intro s hs
      exact hmem s (List.mem_of_mem_filter hs)
    · intro b hb
      cases hb
  · exact ⟨hsort, hmem, hend⟩

lemma step_terminal (u : List ℕ) (stop : ℤ) (op : Op) :
    stepOp u stop op ⟨[], none⟩ = (none, ⟨[], none⟩) := by
  cases op with
  | take => rw [stepOp, next_done]
  | trunc s t =>
    simp only [stepOp, Slots.remove_by_block_time]
    split <;> simp

lemma terminal_run (u : List ℕ) (stop : ℤ) :
    ∀ ops : List Op, runOps u stop ops ⟨[], none⟩ = ([], ⟨[], none⟩) := by
  intro ops
  induction ops with
  | nil => rfl
  | cons op ops ih =>
    rw [runOps, step_terminal, ih]
    rfl

lemma next_none_terminal {u : List ℕ} {st : SlotsInner}
    (h : (Slots.next u st).1 = none) : (Slots.next u st).2 = ⟨[], none⟩ := by
  obtain ⟨l, e⟩ := st
  rcases l.eq_nil_or_concat with rfl | ⟨l2, a, hl⟩
  · rcases e with - | b
    · rw [next_done]
    · rcases hW : (get_blocks u (windowStart b) b).getLast? with - | m
      · have hWnil := List.getLast?_eq_none_iff.mp hW
        rw [next_refill_snd, hWnil]
        rfl
      · rw [next_refill_fst, hW] at h
        cases h
  · rw [List.concat_eq_append] at hl
    subst hl
    rw [next_pop_fst u _ a (List.getLast?_concat _)] at h
    cases h

lemma runOps_inv {u : List ℕ} (hu : List.Sorted (· < ·) u) (h0 : 0 ∉ u) (stop : ℤ) :
    ∀ (ops : List Op) (st : SlotsInner) (v : ℕ), CursorInv u v st →
      List.Sorted (· > ·) (runOps u stop ops st).1 ∧
      ∀ s ∈ (runOps u stop ops st).1, s ∈ u ∧ s < v := by
  intro ops
  induction ops with
  | nil =>
    intro st v hI
    exact ⟨List.sorted_nil, by simp [runOps]⟩
  | cons op ops ih =>
    intro st v hI
    cases op with
    | take =>
      have hstep := next_inv hu h0 hI
      rcases hr : (Slots.next u st).1 with - | x
      · have hI2 := hstep.1 hr
        obtain ⟨ihs, ihm⟩ := ih (Slots.next u st).2 v hI2
        rw [runOps]
        simp only [stepOp, hr, Option.toList_none, List.nil_append]
        exact ⟨ihs, ihm⟩
      · obtain ⟨hxu, hxv, hI2⟩ := hstep.2 x hr
        obtain ⟨ihs, ihm⟩ := ih (Slots.next u st).2 x hI2
        rw [runOps]
        simp only [stepOp, hr, Option.toList_some, List.singleton_append]
        constructor
        · rw [List.sorted_cons]
          exact ⟨fun y hy => (ihm y hy).2, ihs⟩
        · intro s hs
          rcases List.mem_cons.mp hs with rfl | hs
          · exact ⟨hxu, hxv⟩
          · obtain ⟨hsu, hsx⟩ := ihm s hs
            exact ⟨hsu, lt_trans hsx hxv⟩
    | trunc s0 t =>
      have hI2 := remove_inv hI stop t s0
      obtain ⟨ihs, ihm⟩ := ih (Slots.remove_by_block_time stop st s0 t) v hI2
      rw [runOps]
      simp only [stepOp, Option.toList_none, List.nil_append]
      exact ⟨ihs, ihm⟩

lemma boundaryLE_refl : ∀ b : Option ℕ, boundaryLE b b
  | none => trivial
  | some x => le_refl x

lemma boundaryLE_trans {a b c : Option ℕ} (h1 : boundaryLE a b) (h2 : boundaryLE b c) :
    boundaryLE a c := by
  cases a with
  | none => trivial
  | some x =>
    cases b with
    | none => exact h1.elim
    | some y =>
      cases c with
      | none => exact h2.elim
      | some z => exact le_trans (h1 : x ≤ y) (h2 : y ≤ z)

lemma next_boundary {u : List ℕ} (h0 : 0 ∉ u) (st : SlotsInner) :
    boundaryLE (Slots.next u st).2.end_slot st.end_slot ∧
    (st.end_slot = none → (Slots.next u st).2.end_slot = none) := by
  obtain ⟨l, e⟩ := st
  rcases l.eq_nil_or_concat with rfl | ⟨l2, a, hl⟩
  · rcases e with - | b
    · rw [next_done]
      exact ⟨trivial, fun _ => rfl⟩
    · constructor
      · rcases hh : (get_blocks u (windowStart b) b).head? with - | h1
        · rw [next_refill_snd, hh]
          exact trivial
        · have hmem := List.mem_of_mem_head? (Option.mem_def.mpr hh)
          obtain ⟨h1u, -, h1b⟩ := mem_get_blocks.mp hmem
          have h1pos : 1 ≤ h1 := by
            rcases Nat.eq_zero_or_pos h1 with rfl | h
            · exact absurd h1u h0
            · exact h
          rw [next_refill_snd, hh]
          exact le_of_lt (lt_of_lt_of_le (wsub_one_lt h1pos) h1b)
      · intro hc
        cases hc
  · rw [List.concat_eq_append] at hl
    subst hl
    rw [next_pop_snd u _ a (List.getLast?_concat _)]
    exact ⟨boundaryLE_refl e, fun h => h⟩

lemma remove_boundary (stop t : ℤ) (s0 : ℕ) (st : SlotsInner) :
    boundaryLE (Slots.remove_by_block_time stop st s0 t).end_slot st.end_slot ∧
    (st.end_slot = none → (Slots.remove_by_block_time stop st s0 t).end_slot = none) := by
  unfold Slots.remove_by_block_time
  split
  · exact ⟨trivial, fun _ => rfl⟩
  · exact ⟨boundaryLE_refl _, fun h => h⟩

lemma step_boundary {u : List ℕ} (h0 : 0 ∉ u) (stop : ℤ) (op : Op) (st : SlotsInner) :
    boundaryLE (stepOp u stop op st).2.end_slot st.end_slot ∧
    (st.end_slot = none → (stepOp u stop op st).2.end_slot = none) := by
  cases op with
  | take => exact next_boundary h0 st
  | trunc s0 t => exact remove_boundary stop t s0 st

lemma runOps_boundary {u : List ℕ} (h0 : 0 ∉ u) (stop : ℤ) :
    ∀ (ops : List Op) (st : SlotsInner),
      boundaryLE (runOps u stop ops st).2.end_slot st.end_slot ∧
      (st.end_slot = none → (runOps u stop ops st).2.end_slot = none) := by
  intro ops
  induction ops with
  | nil =>
    intro st
    exact ⟨boundaryLE_refl _, fun h => h⟩
  | cons op ops ih =>
    intro st
    have h1 := step_boundary h0 stop op st
    have h2 := ih (stepOp u stop op st).2
    rw [runOps]
    exact ⟨boundaryLE_trans h2.1 h1.1, fun hn => h2.2 (h1.2 hn)⟩

/-- Ghost invariant: every pending slot is strictly below the boundary value
used by the most recent window request (when one happened). -/
def GhostInv (p : SlotsInner × Option ℕ) : Prop :=
  List.Sorted (· < ·) p.1.slots ∧ ∀ b, p.2 = some b → ∀ s ∈ p.1.slots, s < b

lemma stepG_inv {u : List ℕ} (hu : List.Sorted (· < ·) u) (stop : ℤ) (op : Op)
    (st : SlotsInner) (g : Option ℕ) (hI : GhostInv (st, g)) :
    GhostInv ((stepOp u stop op st).2, lastReq st op g) := by
  obtain ⟨hsort, hg⟩ := hI
  obtain ⟨l, e⟩ := st
  cases op with
  | trunc s0 t =>
    simp only [stepOp, lastReq, Slots.remove_by_block_time]
    split
    · exact ⟨hsort.filter _, fun b hb s hs => hg b hb s (List.mem_of_mem_filter hs)⟩
    · exact ⟨hsort, hg⟩
  | take =>
    rcases l with - | ⟨x, xt⟩
    · rcases e with - | b
      · simp only [stepOp, lastReq]
        rw [next_done]
        exact ⟨List.sorted_nil, fun b hb s hs => absurd hs (List.not_mem_nil s)⟩
      · simp only [stepOp, lastReq]
        have hWsort := get_blocks_sorted hu (windowStart b) b
        constructor
        · rw [next_refill_snd]
          exact hWsort.sublist (List.dropLast_sublist _)
        · intro b2 hb2 s hs
          injection hb2 with hb2
          subst hb2
          rw [next_refill_snd] at hs
          rcases hW : (get_blocks u (windowStart b) b).getLast? with - | m
          · rw [List.getLast?_eq_none_iff.mp hW] at hs
            simp at hs
          · obtain ⟨-, hlt, hmW⟩ := sorted_concat_facts hWsort hW
            exact lt_of_lt_of_le (hlt s hs) (mem_get_blocks.mp hmW).2.2
    · simp only [stepOp, lastReq]
      rcases hg2 : (x :: xt).getLast? with - | a
      · exact absurd (List.getLast?_eq_none_iff.mp hg2) (List.cons_ne_nil x xt)
      · rw [next_pop_snd u ⟨x :: xt, e⟩ a hg2]
        constructor
        · exact hsort.sublist (List.dropLast_sublist _)
        · intro b hb s hs
          exact hg b hb s ((List.dropLast_sublist _).subset hs)

lemma runG_inv {u : List ℕ} (hu : List.Sorted (· < ·) u) (stop : ℤ) :
    ∀ (ops : List Op) (p : SlotsInner × Option ℕ), GhostInv p →
      GhostInv (runG u stop ops p) := by
  intro ops
  induction ops with
  | nil =>
    intro p h
    exact h
  | cons op ops ih =>
    intro p h
    rw [runG]
    exact ih _ (stepG_inv hu stop op p.1 p.2 h)

lemma suspendsFrom_retry_true {E A : Type} (call : ℕ → Except E A) :
    ∀ (n k : ℕ) (rest : List Ev),
      suspendsFrom (retryEvents call n k ++ rest) true = true := by
  intro n
  induction n with
  | zero =>
    intro k rest
    simp [retryEvents, suspendsFrom]
  | succ n ih =>
    intro k rest
    cases hc : call k with
    | ok a => simp [retryEvents, hc, suspendsFrom]
    | error e => simp [retryEvents, hc, suspendsFrom]

lemma suspendsFrom_retry_false {E A : Type} (call : ℕ → Except E A) :
    ∀ (n k : ℕ) (rest : List Ev),
      suspendsFrom (retryEvents call n k ++ rest) false = suspendsFrom rest false := by
  intro n
  induction n with
  | zero =>
    intro k rest
    simp [retryEvents, suspendsFrom]
  | succ n ih =>
    intro k rest
    cases hc : call k with
    | ok a => simp [retryEvents, hc, suspendsFrom]
    | error e =>
      simp only [retryEvents, hc, List.cons_append, suspendsFrom, Bool.false_or]
      exact ih (k + 1) rest

/-! ### Claim theorems -/

/-- Concrete retry oracle whose first five calls fail and whose sixth
succeeds. -/
def fiveFailCall : ℕ → Except ℕ ℕ := fun k => if k < 5 then Except.error k else Except.ok 99

/-- Concrete retry oracle all of whose calls fail. -/
def allFailCall : ℕ → Except ℕ ℕ := fun k => Except.error k

/-- C1 counterexample: the retry loop survives 5 consecutive failures.
Against `fiveFailCall` (five failures, then success) the wrapped operation
does not fail with an exhausted-retry error: after 5 backoff sleeps of 10
seconds a sixth call is issued and its success is returned — contradicting
the claim that after 5 consecutive failures the operation fails and a 6th
attempt is never made. -/
theorem c1_sixth_attempt_is_made :
    (retryCall fiveFailCall).result = Except.ok 99 ∧
    (retryCall fiveFailCall).calls = 6 ∧
    (retryCall fiveFailCall).sleeps = List.replicate 5 backoffSecs :=
  ⟨rfl, rfl, rfl⟩

/-- C1 (amended): if six consecutive calls fail, the wrapped operation
fails with the last (sixth) error, exactly 6 calls are issued — a 7th
attempt is never made — and the caller sleeps the fixed 10-second backoff
before each of the 5 retries. -/
theorem c1_retry_exhausted {E A : Type} (call : ℕ → Except E A)
    (h0 : (call 0).isOk = false) (h1 : (call 1).isOk = false)
    (h2 : (call 2).isOk = false) (h3 : (call 3).isOk = false)
    (h4 : (call 4).isOk = false) (h5 : (call 5).isOk = false) :
    (retryCall call).result = call 5 ∧
    ((retryCall call).result).isOk = false ∧
    (retryCall call).calls = 6 ∧
    (retryCall call).sleeps = List.replicate 5 backoffSecs := by
  obtain ⟨e0, hc0⟩ := exists_error_of_isOk_false _ h0
  obtain ⟨e1, hc1⟩ := exists_error_of_isOk_false _ h1
  obtain ⟨e2, hc2⟩ := exists_error_of_isOk_false _ h2
  obtain ⟨e3, hc3⟩ := exists_error_of_isOk_false _ h3
  obtain ⟨e4, hc4⟩ := exists_error_of_isOk_false _ h4
  obtain ⟨e5, hc5⟩ := exists_error_of_isOk_false _ h5
  refine ⟨?_, ?_, ?_, ?_⟩ <;>
    simp [retryCall, retryAux, hc0, hc1, hc2, hc3, hc4, hc5, Except.isOk, Except.toBool,
      List.replicate]

/-- C1 witness: the amended claim at the all-failing oracle. -/
theorem c1_retry_exhausted_witness :
    (retryCall allFailCall).result = allFailCall 5 ∧
    ((retryCall allFailCall).result).isOk = false ∧
    (retryCall allFailCall).calls = 6 ∧
    (retryCall allFailCall).sleeps = List.replicate 5 backoffSecs :=
  c1_retry_exhausted allFailCall rfl rfl rfl rfl rfl rfl

/-- C2 (amended): dispatch is at-most-once.  For a ledger with strictly
ascending slots not containing slot 0, any sequence of cursor operations
from the seeded state returns a strictly descending, duplicate-free list of
slots, all drawn from the ledger — but the union of the returned slots need
not equal the whole universe (see the counterexample). -/
theorem c2_dispatch_at_most_once (u : List ℕ) (stop : ℤ) (b0 : ℕ) (ops : List Op)
    (hu : List.Sorted (· < ·) u) (h0 : 0 ∉ u) :
    List.Sorted (· > ·) (runOps u stop ops ⟨[], some b0⟩).1 ∧
    (runOps u stop ops ⟨[], some b0⟩).1.Nodup ∧
    ∀ s ∈ (runOps u stop ops ⟨[], some b0⟩).1, s ∈ u := by
  have hI : CursorInv u (b0 + 1) ⟨[], some b0⟩ := by
    refine ⟨List.sorted_nil, by simp, ?_⟩
    intro b hb
    injection hb with hb
    exact ⟨by omega, by simp⟩
  obtain ⟨hs, hm⟩ := runOps_inv hu h0 stop ops ⟨[], some b0⟩ (b0 + 1) hI
  exact ⟨hs, hs.nodup, fun s hsmem => (hm s hsmem).1⟩

/-- C2 witness: seeded at 2000 over ledger [1500, 2000], three takes return
[2000, 1500], strictly descending, duplicate-free, inside the ledger. -/
theorem c2_dispatch_at_most_once_witness :
    List.Sorted (· > ·) (runOps [1500, 2000] 0 [Op.take, Op.take, Op.take] ⟨[], some 2000⟩).1 ∧
    (runOps [1500, 2000] 0 [Op.take, Op.take, Op.take] ⟨[], some 2000⟩).1.Nodup ∧
    ∀ s ∈ (runOps [1500, 2000] 0 [Op.take, Op.take, Op.take] ⟨[], some 2000⟩).1,
      s ∈ [1500, 2000] :=
  c2_dispatch_at_most_once [1500, 2000] 0 2000 [Op.take, Op.take, Op.take]
    (by decide) (by decide)

/-- C2 counterexample: the union of returned slots does not equal the
universe.  With ledger slots {2000, 5000} and the cursor seeded at 5000,
the first window [4000, 5000] yields only 5000, the new boundary becomes
4999, the second window [3999, 4999] is empty, and the cursor exhausts:
slot 2000 of the universe is never returned. -/
theorem c2_union_misses_universe_slot :
    (runOps [2000, 5000] 0 [Op.take, Op.take] ⟨[], some 5000⟩).1 = [5000] ∧
    (runOps [2000, 5000] 0 [Op.take, Op.take] ⟨[], some 5000⟩).2 = ⟨[], none⟩ ∧
    2000 ∈ [2000, 5000] ∧
    2000 ∉ (runOps [2000, 5000] 0 [Op.take, Op.take] ⟨[], some 5000⟩).1 := by
  refine ⟨by decide, by decide, by decide, by decide⟩

/-- C3: exhaustion is terminal.  If a `Slots::next` call returns `Done`
(`None`), the cursor is left with an empty pending list and a cleared
boundary, and every subsequent sequence of `next` and
`remove_by_block_time` operations returns no further slot and leaves the
cursor in that same state. -/
theorem c3_exhaustion_terminal (u : List ℕ) (stop : ℤ) (st : SlotsInner) (ops : List Op)
    (h : (Slots.next u st).1 = none) :
    (runOps u stop ops (Slots.next u st).2).1 = [] ∧
    (runOps u stop ops (Slots.next u st).2).2 = ⟨[], none⟩ := by
  rw [next_none_terminal h, terminal_run]
  exact ⟨rfl, rfl⟩

/-- C3 witness: an exhausted cursor stays exhausted across takes and
truncations. -/
theorem c3_exhaustion_terminal_witness :
    (runOps [] 0 [Op.take, Op.trunc 5 (-1), Op.take] (Slots.next [] ⟨[], some 5000⟩).2).1 = [] ∧
    (runOps [] 0 [Op.take, Op.trunc 5 (-1), Op.take] (Slots.next [] ⟨[], some 5000⟩).2).2 =
      ⟨[], none⟩ :=
  c3_exhaustion_terminal [] 0 ⟨[], some 5000⟩ [Op.take, Op.trunc 5 (-1), Op.take] (by decide)

/-- C4: the refill step.  With empty pending list and a boundary `b` in
range (`1000 ≤ b < 2^64`, the precondition flagged by C10, over a ledger of
nonzero slots), `Slots::next` requests exactly the ascending slot list of
the range [b - 1000, b], replaces the pending list with that window minus
its popped maximum, returns the numerically highest slot of the window,
sets the new boundary to one less than the smallest slot returned (or
clears it when the window is empty), and leaves the pending list strictly
ascending, so repeated pops dispatch in strictly descending order. -/
theorem c4_refill_window (u : List ℕ) (st : SlotsInner) (b : ℕ)
    (hu : List.Sorted (· < ·) u) (h0 : 0 ∉ u)
    (hs : st.slots = []) (he : st.end_slot = some b)
    (hb : 1000 ≤ b) (hb2 : b < u64Size) :
    windowStart b = b - 1000 ∧
    (∀ s, s ∈ get_blocks u (b - 1000) b ↔ s ∈ u ∧ b - 1000 ≤ s ∧ s ≤ b) ∧
    List.Sorted (· < ·) (get_blocks u (b - 1000) b) ∧
    (Slots.next u st).2.slots = (get_blocks u (b - 1000) b).dropLast ∧
    List.Sorted (· < ·) (Slots.next u st).2.slots ∧
    (∀ m, (get_blocks u (b - 1000) b).getLast? = some m →
      (Slots.next u st).1 = some m ∧ ∀ s ∈ get_blocks u (b - 1000) b, s ≤ m) ∧
    (∀ h1, (get_blocks u (b - 1000) b).head? = some h1 →
      (Slots.next u st).2.end_slot = some (h1 - 1) ∧
      ∀ s ∈ get_blocks u (b - 1000) b, h1 ≤ s) ∧
    (get_blocks u (b - 1000) b = [] →
      (Slots.next u st).1 = none ∧ (Slots.next u st).2.end_slot = none) := by
  obtain ⟨l, e⟩ := st
  subst hs
  subst he
  have hws : windowStart b = b - 1000 := wsub_eq_sub hb hb2
  have hWsort : List.Sorted (· < ·) (get_blocks u (b - 1000) b) := get_blocks_sorted hu _ b
  refine ⟨hws, fun s => mem_get_blocks, hWsort, ?_, ?_, ?_, ?_, ?_⟩
  · rw [next_refill_snd, hws]
  · rw [next_refill_snd, hws]
    exact hWsort.sublist (List.dropLast_sublist _)
  · intro m hm
    constructor
    · rw [next_refill_fst, hws, hm]
    · exact (sorted_concat_facts hWsort hm).1
  · intro h1 hh
    obtain ⟨hle, hmem⟩ := sorted_head_facts hWsort hh
    have h1pos : 1 ≤ h1 := one_le_of_mem_get_blocks h0 hmem
    have h1b : h1 ≤ b := (mem_get_blocks.mp hmem).2.2
    constructor
    · rw [next_refill_snd, hws, hh]
      show some (wsub h1 1) = some (h1 - 1)
      rw [wsub_eq_sub h1pos (lt_of_le_of_lt h1b hb2)]
    · exact hle
  · intro hW
    constructor
    · rw [next_refill_fst, hws, hW]
      rfl
    · rw [next_refill_snd, hws, hW]
      rfl

/-- C4 witness: the refill claim at ledger [1500, 1999, 2000] seeded with
boundary 2000: the window [1000, 2000] is [1500, 1999, 2000], the call
returns 2000, the pending list becomes [1500, 1999] and the boundary 1499. -/
theorem c4_refill_window_witness :
    windowStart 2000 = 2000 - 1000 ∧
    (∀ s, s ∈ get_blocks [1500, 1999, 2000] (2000 - 1000) 2000 ↔
      s ∈ [1500, 1999, 2000] ∧ 2000 - 1000 ≤ s ∧ s ≤ 2000) ∧
    List.Sorted (· < ·) (get_blocks [1500, 1999, 2000] (2000 - 1000) 2000) ∧
    (Slots.next [1500, 1999, 2000] ⟨[], some 2000⟩).2.slots =
      (get_blocks [1500, 1999, 2000] (2000 - 1000) 2000).dropLast ∧
    List.Sorted (· < ·) (Slots.next [1500, 1999, 2000] ⟨[], some 2000⟩).2.slots ∧
    (∀ m, (get_blocks [1500, 1999, 2000] (2000 - 1000) 2000).getLast? = some m →
      (Slots.next [1500, 1999, 2000] ⟨[], some 2000⟩).1 = some m ∧
      ∀ s ∈ get_blocks [1500, 1999, 2000] (2000 - 1000) 2000, s ≤ m) ∧
    (∀ h1, (get_blocks [1500, 1999, 2000] (2000 - 1000) 2000).head? = some h1 →
      (Slots.next [1500, 1999, 2000] ⟨[], some 2000⟩).2.end_slot = some (h1 - 1) ∧
      ∀ s ∈ get_blocks [1500, 1999, 2000] (2000 - 1000) 2000, h1 ≤ s) ∧
    (get_blocks [1500, 1999, 2000] (2000 - 1000) 2000 = [] →
      (Slots.next [1500, 1999, 2000] ⟨[], some 2000⟩).1 = none ∧
      (Slots.next [1500, 1999, 2000] ⟨[], some 2000⟩).2.end_slot = none) :=
  c4_refill_window [1500, 1999, 2000] ⟨[], some 2000⟩ 2000 (by decide) (by decide)
    rfl rfl (by decide) (by decide)

lemma remove_slots_length_le (stop t : ℤ) (s0 : ℕ) (st : SlotsInner) :
    (Slots.remove_by_block_time stop st s0 t).slots.length ≤ st.slots.length := by
  unfold Slots.remove_by_block_time
  split
  · exact List.length_filter_le _ _
  · exact le_refl _

/-- C5: truncation.  When the observed block time is below the stop time,
`remove_by_block_time` replaces the pending list by its entries `>= slot`
and clears the boundary, so no further windows are ever requested; the call
is idempotent, and any call — repeated or out of order — never grows the
pending list. -/
theorem c5_truncate_below (stop t : ℤ) (s0 : ℕ) (st : SlotsInner) :
    (t < stop → Slots.remove_by_block_time stop st s0 t =
      ⟨st.slots.filter fun islot => s0 ≤ islot, none⟩) ∧
    Slots.remove_by_block_time stop (Slots.remove_by_block_time stop st s0 t) s0 t =
      Slots.remove_by_block_time stop st s0 t ∧
    ∀ (s1 : ℕ) (t1 : ℤ),
      (Slots.remove_by_block_time stop st s1 t1).slots.length ≤ st.slots.length ∧
      (Slots.remove_by_block_time stop
          (Slots.remove_by_block_time stop st s0 t) s1 t1).slots.length ≤
        (Slots.remove_by_block_time stop st s0 t).slots.length := by
  refine ⟨?_, ?_, ?_⟩
  · intro ht
    unfold Slots.remove_by_block_time
    rw [if_pos ht]
  · by_cases ht : t < stop
    · simp only [Slots.remove_by_block_time, if_pos ht]
      congr 1
      rw [List.filter_filter]
      congr 1
      funext a
      exact Bool.and_self _
    · simp only [Slots.remove_by_block_time, if_neg ht]
  · intro s1 t1
    exact ⟨remove_slots_length_le stop t1 s1 st, remove_slots_length_le stop t1 s1 _⟩

/-- C5 witness: truncating at slot 3 with timestamp 5 below stop 10 keeps
only the pending slots at least 3 and clears the boundary; repeating the
call changes nothing. -/
theorem c5_truncate_below_witness :
    Slots.remove_by_block_time 10 ⟨[1, 2, 3, 4], some 9⟩ 3 5 = ⟨[3, 4], none⟩ ∧
    Slots.remove_by_block_time 10 (Slots.remove_by_block_time 10 ⟨[1, 2, 3, 4], some 9⟩ 3 5) 3 5 =
      Slots.remove_by_block_time 10 ⟨[1, 2, 3, 4], some 9⟩ 3 5 :=
  ⟨((c5_truncate_below 10 5 3 ⟨[1, 2, 3, 4], some 9⟩).1 (by decide)).trans (by decide),
   (c5_truncate_below 10 5 3 ⟨[1, 2, 3, 4], some 9⟩).2.1⟩

/-- C6 counterexample: the boundary can reset upward.  With genesis slot 0
in the ledger and boundary exactly 1000, the refill window [0, 1000]
returns slot 0, and the boundary update `first - 1 = 0 - 1` wraps on u64
(release builds) to 2^64 - 1: the stored boundary jumps from 1000 to
18446744073709551615, which is not weakly downward. -/
theorem c6_boundary_resets_upward_on_genesis :
    (Slots.next [0] ⟨[], some 1000⟩).1 = some 0 ∧
    (Slots.next [0] ⟨[], some 1000⟩).2.end_slot = some (u64Size - 1) ∧
    ¬ boundaryLE (Slots.next [0] ⟨[], some 1000⟩).2.end_slot (some 1000) := by
  refine ⟨by decide, by decide, by decide⟩

/-- C6 (amended): over a ledger that does not contain slot 0 (so the
`first - 1` boundary update cannot underflow), across any sequence of
cursor operations the Window Boundary moves weakly downward, and once
exhausted (`None`) it never becomes non-exhausted again. -/
theorem c6_monotone_boundary (u : List ℕ) (stop : ℤ) (ops : List Op) (st : SlotsInner)
    (h0 : 0 ∉ u) :
    boundaryLE (runOps u stop ops st).2.end_slot st.end_slot ∧
    (st.end_slot = none → (runOps u stop ops st).2.end_slot = none) :=
  runOps_boundary h0 stop ops st

/-- C6 witness: a run mixing refills, pops and a truncation only moves the
boundary downward from its seed 2000. -/
theorem c6_monotone_boundary_witness :
    boundaryLE
      (runOps [1500, 2000] 0 [Op.take, Op.trunc 1500 (-5), Op.take] ⟨[], some 2000⟩).2.end_slot
      (⟨[], some 2000⟩ : SlotsInner).end_slot :=
  (c6_monotone_boundary [1500, 2000] 0 [Op.take, Op.trunc 1500 (-5), Op.take]
    ⟨[], some 2000⟩ (by decide)).1

/-- C7: windows never overlap.  Starting from a seeded cursor, after any
sequence of operations every slot still pending is strictly below the
boundary value used by the most recent window request. -/
theorem c7_pending_below_last_window (u : List ℕ) (stop : ℤ) (b0 : ℕ) (ops : List Op) (b : ℕ)
    (hu : List.Sorted (· < ·) u)
    (hg : (runG u stop ops (⟨[], some b0⟩, none)).2 = some b) :
    ∀ s ∈ (runG u stop ops (⟨[], some b0⟩, none)).1.slots, s < b := by
  have hinv := runG_inv hu stop ops (⟨[], some b0⟩, none)
    ⟨List.sorted_nil, by intro b2 hb2; cases hb2⟩
  exact hinv.2 b hg

/-- C7 witness: after the first refill at boundary 2000, pending slot 1500
is strictly below the requested boundary 2000. -/
theorem c7_pending_below_last_window_witness :
    1500 ∈ (runG [1500, 1999, 2000] 0 [Op.take] (⟨[], some 2000⟩, none)).1.slots ∧
    1500 < 2000 :=
  ⟨by decide,
   c7_pending_below_last_window [1500, 1999, 2000] 0 2000 [Op.take] 2000
     (by decide) (by decide) 1500 (by decide)⟩

/-- C8 counterexample: malformed transactions are silently dropped.  A block
carrying one undecodable transaction (`decode()` = `None`) and one decodable
transaction with account key A is processed normally: the worker records the
block with pubkey set {A}; no error is raised, processing of the block is
not aborted, and the undecodable entry contributes nothing (it is replaced
by the empty key list through `unwrap_or_default()`). -/
theorem c8_malformed_silently_dropped :
    processBlock 0 5 ⟨some 10, [none, some ["A"]]⟩ = WorkerAct.record 5 10 {"A"} ∧
    collectPubkeys [none, some ["A"]] = collectPubkeys [some ["A"]] := by
  refine ⟨by decide, by decide⟩

/-- C8 (amended): a transaction whose payload cannot be decoded contributes
no identifiers and is silently skipped — removing it from the transaction
list changes neither the collected pubkey set nor the worker action; pubkey
extraction is total and never terminates the worker loop with an error. -/
theorem c8_malformed_tx_ignored (stop : ℤ) (slot : ℕ) (t : ℤ)
    (pre post : List (Option (List String))) :
    collectPubkeys (pre ++ none :: post) = collectPubkeys (pre ++ post) ∧
    processBlock stop slot ⟨some t, pre ++ none :: post⟩ =
      processBlock stop slot ⟨some t, pre ++ post⟩ := by
  have hc : collectPubkeys (pre ++ none :: post) = collectPubkeys (pre ++ post) := by
    unfold collectPubkeys
    simp
  refine ⟨hc, ?_⟩
  simp [processBlock, hc]

/-- Concrete retry oracle for the event traces: the first call succeeds with
a slot list. -/
def okListCall : ℕ → Except ℕ (List ℕ) := fun _ => Except.ok [5000]

/-- C9 counterexample: the refill path of `Slots::next` reaches a suspension
point while the cursor lock is held.  With empty pending list and boundary
2000 the trace is [acquire, rpc, release]: the `get_blocks` remote call runs
between taking and dropping the tokio mutex guard, contradicting the claim
that no suspension point is ever reached under a lock. -/
theorem c9_refill_suspends_under_lock :
    suspendsWhileHeld (nextEvents okListCall ⟨[], some 2000⟩) = true ∧
    nextEvents okListCall ⟨[], some 2000⟩ = [Ev.acquire, Ev.rpc, Ev.release] := by
  refine ⟨by decide, by decide⟩

/-- C9 (amended): only the window-refill path suspends under the cursor
lock.  When the pending list is nonempty (pop fast path) or the boundary is
exhausted, `Slots::next` holds the lock across no suspension point; when the
pending list is empty and a boundary is set, the refill remote call (and any
of its backoff sleeps) always runs while the lock is held; the rest of a
worker iteration — the block fetch retry loop and the Result Aggregate
insert — never suspends while holding a lock. -/
theorem c9_lock_suspension_profile {E A : Type} (call : ℕ → Except E A) (st : SlotsInner) :
    (st.slots ≠ [] → suspendsWhileHeld (nextEvents call st) = false) ∧
    (st.end_slot = none → suspendsWhileHeld (nextEvents call st) = false) ∧
    (∀ b, st.slots = [] → st.end_slot = some b →
      suspendsWhileHeld (nextEvents call st) = true) ∧
    suspendsWhileHeld (workerTailEvents call) = false := by
  obtain ⟨l, e⟩ := st
  refine ⟨?_, ?_, ?_, ?_⟩
  · intro hl
    rcases l with - | ⟨x, xt⟩
    · exact absurd rfl hl
    · rcases e with - | b <;> rfl
  · intro he
    rcases e with - | b
    · rcases l with - | ⟨x, xt⟩ <;> rfl
    · cases he
  · intro b hl he
    subst hl
    rcases e with - | b2
    · cases he
    show suspendsFrom (Ev.acquire :: (retryEvents call 5 0 ++ [Ev.release])) false = true
    show suspendsFrom (retryEvents call 5 0 ++ [Ev.release]) true = true
    exact suspendsFrom_retry_true call 5 0 [Ev.release]
  · show suspendsFrom (retryEvents call 5 0 ++ [Ev.acquire, Ev.release]) false = false
    rw [suspendsFrom_retry_false call 5 0 [Ev.acquire, Ev.release]]
    rfl

/-- C9 witness: the amended profile at concrete states — the pop path and
the exhausted path do not suspend under the lock, the refill path does, and
the worker tail never suspends under a lock. -/
theorem c9_lock_suspension_profile_witness :
    suspendsWhileHeld (nextEvents okListCall ⟨[7], some 2000⟩) = false ∧
    suspendsWhileHeld (nextEvents okListCall ⟨[], none⟩) = false ∧
    suspendsWhileHeld (nextEvents okListCall ⟨[], some 9⟩) = true ∧
    suspendsWhileHeld (workerTailEvents okListCall) = false :=
  ⟨(c9_lock_suspension_profile okListCall ⟨[7], some 2000⟩).1 (by simp),
   (c9_lock_suspension_profile okListCall ⟨[], none⟩).2.1 rfl,
   (c9_lock_suspension_profile okListCall ⟨[], some 9⟩).2.2.1 9 rfl rfl,
   (c9_lock_suspension_profile okListCall ⟨[], none⟩).2.2.2⟩

/-- C10: the refill window start underflows u64 when the boundary is below
1000.  With empty pending list and boundary `b < 1000`, the source computes
`end_slot - 1_000`, which on u64 wraps to `b + 2^64 - 1000` — a value near
2^64 and above `b` (debug builds panic at this subtraction instead) — so the
requested range [start, b] is empty and, in this model, the call returns
`Done` with a cleared boundary; the spec states no precondition guarding
this. -/
theorem c10_window_start_underflow (u : List ℕ) (st : SlotsInner) (b : ℕ)
    (hs : st.slots = []) (he : st.end_slot = some b) (hb : b < 1000) :
    windowStart b = b + (u64Size - 1000) ∧
    b < windowStart b ∧
    u64Size - 1000 ≤ windowStart b ∧
    get_blocks u (windowStart b) b = [] ∧
    Slots.next u st = (none, ⟨[], none⟩) := by
  obtain ⟨l, e⟩ := st
  subst hs
  subst he
  have hws : windowStart b = b + (u64Size - 1000) := by
    unfold windowStart wsub
    apply Nat.mod_eq_of_lt
    rw [u64Size_eq]
    omega
  have hgt : b < windowStart b := by
    rw [hws, u64Size_eq]
    omega
  have hnil : get_blocks u (windowStart b) b = [] := by
    unfold get_blocks
    apply List.filter_eq_nil_iff.mpr
    intro s hsu
    simp only [decide_eq_true_eq, not_and]
    intro hle
    omega
  refine ⟨hws, hgt, ?_, hnil, ?_⟩
  · rw [hws]
    omega
  · rw [next_refill, hnil]
    rfl

/-- C10 witness: boundary 999 with a ledger holding slot 500: the computed
window start is 2^64 - 1, the requested window is empty, and the cursor
exhausts even though the ledger still has slots below the boundary. -/
theorem c10_window_start_underflow_witness :
    windowStart 999 = 999 + (u64Size - 1000) ∧
    999 < windowStart 999 ∧
    u64Size - 1000 ≤ windowStart 999 ∧
    get_blocks [500] (windowStart 999) 999 = [] ∧
    Slots.next [500] ⟨[], some 999⟩ = (none, ⟨[], none⟩) :=
  c10_window_start_underflow [500] ⟨[], some 999⟩ 999 rfl rfl (by decide)
